import Mathlib

/-!
Verification development for the consensus core of a minimal replicated
ledger (file src/blockchain.py of the repository under check).

The embedding below translates the Python source into Lean:
Python dicts keyed by account strings become functions into Option,
Python ints become Int (node identifiers, which are ports, become Nat),
and code that can raise an exception returns Option, with none standing
for the raised exception.  The periodic trigger of the mining cycle and
the HTTP route that appends an accepted block to the chain live outside
the provided source; where a definition models such missing code from
the specification text, its doc comment says so explicitly.
-/

/-- Python str of an integer, as produced by the builtin str. -/
def pyIntStr : Int → String
  | Int.ofNat m => Nat.repr m
  | Int.negSucc m => "-" ++ Nat.repr (m + 1)

/-- Python dict assignment d[k] = v for a string-keyed dict modelled as a
function into Option. -/
def dset {α : Type} (d : String → Option α) (k : String) (v : α) : String → Option α :=
  fun x => if x = k then some v else d x

/-- Transaction value type (class Transaction): a transfer of amount from
sender to recipient.  Python defines equality over the field triple, which
coincides with structural equality here. -/
structure Transaction where
  sender : String
  recipient : String
  amount : Int
deriving DecidableEq

/-- Python method Transaction.__str__, the canonical string form used
inside the block hash preimage. -/
def Transaction.str (t : Transaction) : String :=
  "T(" ++ t.sender ++ " -> " ++ t.recipient ++ ": " ++ pyIntStr t.amount ++ ")"

/-- The wire form of a Transaction: the dict produced by Transaction.encode,
which has exactly the keys sender, recipient, amount. -/
structure TransactionData where
  sender : String
  recipient : String
  amount : Int
deriving DecidableEq

/-- Python method Transaction.encode: a copy of the field dict. -/
def Transaction.encode (t : Transaction) : TransactionData :=
  ⟨t.sender, t.recipient, t.amount⟩

/-- Python static method Transaction.decode: rebuild from the wire dict. -/
def Transaction.decode (d : TransactionData) : Transaction :=
  ⟨d.sender, d.recipient, d.amount⟩

/-- Python method Transaction.__lt__: lexicographic by sender, then
recipient, then amount. -/
def Transaction.lt (a b : Transaction) : Bool :=
  if a.sender < b.sender then true
  else if a.sender > b.sender then false
  else if a.recipient < b.recipient then true
  else if a.recipient > b.recipient then false
  else decide (a.amount < b.amount)

/-- Insert a transaction into a list sorted ascending by Transaction.lt. -/
def insertTxn (t : Transaction) : List Transaction → List Transaction
  | [] => [t]
  | u :: rest => if Transaction.lt u t then u :: insertTxn t rest else t :: u :: rest

/-- Python list.sort() on the pending-transaction list: a stable ascending
sort by Transaction.__lt__ (the claims checked here never inspect the
resulting order, only the resulting set of elements). -/
def sortTxns : List Transaction → List Transaction
  | [] => []
  | t :: rest => insertTxn t (sortTxns rest)

/-- Python str of a list of strings, as used in the hash preimage: square
brackets around comma-separated elements, each wrapped in single quotes. -/
def pyStrList (l : List String) : String :=
  "[" ++ String.intercalate ", " (l.map fun s => "\x27" ++ s ++ "\x27") ++ "]"

/-- hashlib.sha256(preimage).hexdigest().  The digest is modelled as an
injective function of the preimage (the digest is represented by the
preimage itself); every claim checked here depends only on the digest
being a deterministic function of the hashed content, never on its
length, format, or collision behaviour. -/
def sha256hex (preimage : String) : String := preimage

/-- Block value type (class Block).  Python computes self.hash from the
other four fields once in the constructor and the object is never mutated,
so the stored hash always equals the recomputation Block._hash; the
embedding therefore keeps the four content fields and derives the hash. -/
structure Block where
  number : Int
  transactions : List Transaction
  previous_hash : String
  miner : Nat
deriving DecidableEq

/-- Python method Block._hash (also the value of the stored field
self.hash): sha256 over str(number), str of the list of transaction
strings, str(previous_hash) and str(miner), concatenated. -/
def Block.hash (b : Block) : String :=
  sha256hex (pyIntStr b.number ++ pyStrList (b.transactions.map Transaction.str)
    ++ b.previous_hash ++ Nat.repr b.miner)

/-- The wire form of a Block: the dict produced by Block.encode. -/
structure BlockData where
  number : Int
  transactions : List TransactionData
  previous_hash : String
  miner : Nat
  hash : String
deriving DecidableEq

/-- Python method Block.encode: the field dict with the transaction list
recursively encoded. -/
def Block.encode (b : Block) : BlockData :=
  ⟨b.number, b.transactions.map Transaction.encode, b.previous_hash, b.miner, b.hash⟩

/-- Python static method Block.decode: decode the transaction list and
call the constructor, which recomputes the hash and ignores the hash key
of the wire dict. -/
def Block.decode (d : BlockData) : Block :=
  ⟨d.number, d.transactions.map Transaction.decode, d.previous_hash, d.miner⟩

/-- The balances dict of class State: account id to integer balance. -/
abbrev Balances := String → Option Int

/-- The updates dict of class State: account id to list of
(block number, delta) pairs. -/
abbrev Updates := String → Option (List (Int × Int))

/-- Ledger state (class State): authoritative balances plus per-account
change history. -/
structure State where
  balances : Balances
  updates : Updates

/-- Python State.__init__: both dicts start empty. -/
def State.init : State := ⟨fun _ => none, fun _ => none⟩

/-- The two mutation lines shared verbatim by State.valid and
State.apply_transaction:
first d[recipient] = d.get(recipient, 0) + amount, then
d[sender] = d[sender] - amount.  The second line raises KeyError when the
sender has no entry, modelled by none. -/
def transferUpd (b : Balances) (sender recipient : String) (amount : Int) : Option Balances :=
  let b1 := dset b recipient ((b recipient).getD 0 + amount)
  match b1 sender with
  | some v => some (dset b1 sender (v - amount))
  | none => none

/-- Python method State.valid(transaction, temp_state): reject when the
sender is missing from the snapshot, the amount is negative, or the sender
balance is short; otherwise mutate the snapshot with the transfer and
accept.  Returns the decision together with the (possibly updated)
snapshot.  The Python receiver self is unused by the method and is
dropped here. -/
def State.valid (transaction : Transaction) (temp_state : Balances) : Bool × Balances :=
  if (temp_state transaction.sender).isNone then (false, temp_state)
  else if transaction.amount < 0 then (false, temp_state)
  else if (temp_state transaction.sender).getD 0 < transaction.amount then (false, temp_state)
  else
    match transferUpd temp_state transaction.sender transaction.recipient transaction.amount with
    | some temp2 => (true, temp2)
    | none => (false, temp_state)
    -- the none branch is unreachable: the first check established that the
    -- sender has an entry in the snapshot, so the subtraction cannot fail

/-- The list comprehension in State.validate_txns: filter the input by
State.valid while threading the mutated snapshot through the calls, and
also return the final snapshot. -/
def validateAux : List Transaction → Balances → List Transaction × Balances
  | [], temp => ([], temp)
  | t :: rest, temp =>
    match State.valid t temp with
    | (true, temp2) =>
      let r := validateAux rest temp2
      (t :: r.1, r.2)
    | (false, temp2) => validateAux rest temp2

/-- Python method State.validate_txns: run the comprehension over a deep
copy of the authoritative balances and return the kept transactions. -/
def State.validate_txns (st : State) (txns : List Transaction) : List Transaction :=
  (validateAux txns st.balances).1

/-- Python method State.apply_transaction: the transfer mutation on the
authoritative balances.  Raises (none) when the sender has no entry. -/
def State.apply_transaction (st : State) (txn : Transaction) : Option State :=
  match transferUpd st.balances txn.sender txn.recipient txn.amount with
  | some b2 => some { st with balances := b2 }
  | none => none

/-- One paragraph of State.update_history, written once and applied to the
sender with delta -amount and then to the recipient with delta +amount:
create a one-entry history for an absent account; otherwise coalesce into
the last entry when its block number matches, else append a new entry.
Indexing a present but empty history with [-1] raises, modelled by none
(the code never creates an empty history). -/
def histUpd (updates : Updates) (account : String) (blocknum : Int) (delta : Int) :
    Option Updates :=
  match updates account with
  | none => some (dset updates account [(blocknum, delta)])
  | some l =>
    match l.getLast? with
    | none => none
    | some last =>
      if last.1 = blocknum then
        some (dset updates account (l.dropLast ++ [(last.1, last.2 + delta)]))
      else
        some (dset updates account (l ++ [(blocknum, delta)]))

/-- Python method State.update_history: record the sender debit, then the
recipient credit, against the given block number. -/
def State.update_history (st : State) (txn : Transaction) (blocknum : Int) : Option State :=
  match histUpd st.updates txn.sender blocknum (-txn.amount) with
  | none => none
  | some u1 =>
    match histUpd u1 txn.recipient blocknum txn.amount with
    | none => none
    | some u2 => some { st with updates := u2 }

/-- Python method State.apply_block: for each transaction in order, record
history and then apply the transfer. -/
def State.apply_block (st : State) (block : Block) : Option State :=
  block.transactions.foldlM
    (fun s t =>
      match s.update_history t block.number with
      | none => none
      | some s1 => s1.apply_transaction t)
    st

/-- Python method State.history: the recorded update list of an account,
empty when the account is absent. -/
def State.history (st : State) (account : String) : List (Int × Int) :=
  match st.updates account with
  | none => []
  | some l => l

/-- The out-of-protocol genesis bootstrap credit, written inline twice in
the Python source: balances of account A are set to 10000 and its history
to the single pair (1, 10000). -/
def genesisCredit (st : State) : State :=
  { balances := dset st.balances "A" 10000
    updates := dset st.updates "A" [((1 : Int), (10000 : Int))] }

/-- Orchestrator state (class Blockchain): peer list, own identity,
pending-transaction pool, committed chain, ledger state. -/
structure Blockchain where
  nodes : List Nat
  node_identifier : Nat
  current_transactions : List Transaction
  chain : List Block
  state : State

/-- Python Blockchain.__init__ with everything empty (nodes and identity
are filled in by external bootstrap code). -/
def Blockchain.init (nodes : List Nat) (node_identifier : Nat) : Blockchain :=
  ⟨nodes, node_identifier, [], [], State.init⟩

/-- Python method Blockchain.new_transaction: construct the transaction
and append it to the mempool, unconditionally. -/
def Blockchain.new_transaction (bc : Blockchain) (sender recipient : String) (amount : Int) :
    Blockchain :=
  { bc with current_transactions := bc.current_transactions ++ [⟨sender, recipient, amount⟩] }

/-- Python list.index on the node list: index of the first occurrence,
none for the ValueError raised when the element is absent. -/
def pyIndex : List Nat → Nat → Option Nat
  | [], _ => none
  | a :: l, x => if a = x then some 0 else (pyIndex l x).map (· + 1)

/-- The body of the helper next_miner as a function of the previous miner
identity: locate the identity in the node list, advance by one, wrap
modulo the length.  none models the ValueError when the identity is not
in the list. -/
def nextMinerId (m : Nat) (nodes_list : List Nat) : Option Nat :=
  (pyIndex nodes_list m).bind fun idx => nodes_list.get? ((idx + 1) % nodes_list.length)

/-- Python helper next_miner(block, nodes_list): the round-robin successor
of the miner of the given block. -/
def next_miner (block : Block) (nodes_list : List Nat) : Option Nat :=
  nextMinerId block.miner nodes_list

/-- The previous-hash expectation of acceptance check 2: the recomputed
hash of the chain tip, or the genesis sentinel on an empty chain. -/
def prevHashOf (chain : List Block) : String :=
  match chain.getLast? with
  | some tip => tip.hash
  | none => "0xfeedcafe"

/-- The block-number expectation of acceptance check 4: the tip number
plus one, or 1 on an empty chain. -/
def nextNumberOf (chain : List Block) : Int :=
  match chain.getLast? with
  | some tip => tip.number + 1
  | none => 1

/-- The miner expectation of acceptance check 5: the round-robin successor
of the tip miner, or the minimum node identity on an empty chain.  none
models the exceptions raised by list.index and by min of an empty list. -/
def expectedMinerOf (chain : List Block) (nodes : List Nat) : Option Nat :=
  match chain.getLast? with
  | some tip => next_miner tip nodes
  | none => nodes.min?

/-- Python method Blockchain.is_new_block_valid: the five acceptance
checks in order, short-circuiting to False; when all pass, credit the
genesis bootstrap for block number 1 and apply the block to the ledger
state, returning True.  The result carries the possibly-updated ledger
state (the method mutates only self.state); none models a raised
exception. -/
def Blockchain.is_new_block_valid (bc : Blockchain) (block : Block)
    (received_blockhash : String) : Option (Bool × State) :=
  if block.hash ≠ received_blockhash then some (false, bc.state)
  else if block.previous_hash ≠ prevHashOf bc.chain then some (false, bc.state)
  else if bc.state.validate_txns block.transactions ≠ block.transactions then
    some (false, bc.state)
  else if block.number ≠ nextNumberOf bc.chain then some (false, bc.state)
  else
    match expectedMinerOf bc.chain bc.nodes with
    | none => none
    | some nxt_miner =>
      if block.miner ≠ nxt_miner then some (false, bc.state)
      else
        let st0 := if block.number = 1 then genesisCredit bc.state else bc.state
        (st0.apply_block block).map fun st1 => (true, st1)

/-- Modelled from the spec: the peer block ingestion entry point (the HTTP
route of the repository that calls is_new_block_valid is not under src/).
Following section 4.4 of the specification, when the five checks hold the
block is appended to the chain; a rejection leaves every component
unchanged. -/
def Blockchain.accept (bc : Blockchain) (block : Block) (claimed_hash : String) :
    Option (Bool × Blockchain) :=
  (bc.is_new_block_valid block claimed_hash).map fun r =>
    match r with
    | (true, st1) => (true, { bc with state := st1, chain := bc.chain ++ [block] })
    | (false, st1) => (false, { bc with state := st1 })

/-- The broadcast loop at the end of the mining cycle: iterate the node
list in order, skip the own identity, and post the encoded block to each
remaining peer.  The delivery outcomes are an oracle argument (the network
side of requests.post); the loop has no exception handler, so a raised
delivery error stops the iteration.  Returns the peers to which a post was
attempted, in order, and the error that escaped, if any. -/
def broadcastLoop (post : Nat → BlockData → Except String Unit) (self_id : Nat)
    (payload : BlockData) : List Nat → List Nat × Option String
  | [] => ([], none)
  | n :: rest =>
    if n = self_id then broadcastLoop post self_id payload rest
    else
      match post n payload with
      | Except.ok _ =>
        match broadcastLoop post self_id payload rest with
        | (l, e) => (n :: l, e)
      | Except.error e => ([n], some e)

/-- The local-commit part of Python method
Blockchain.__mine_new_block_in_thread, everything after the timed wait and
before the broadcast loop: build the genesis block, or drain the sorted
pool through validate_txns into a block extending the tip; then append the
block to the chain, filter the included transactions out of the pool,
apply the block to the ledger state, and add the genesis bootstrap credit
on the genesis path.  none models a raised exception (indexing the tip of
an empty chain on the non-genesis path, or a failed state application). -/
def Blockchain.mine_commit (bc : Blockchain) (genesis : Bool) : Option (Blockchain × Block) :=
  let miner := bc.node_identifier
  if genesis then
    let included_transactions : List Transaction := []
    let block : Block := ⟨1, included_transactions, "0xfeedcafe", miner⟩
    let chain1 := bc.chain ++ [block]
    let pool1 := bc.current_transactions.filter fun t => !(included_transactions.contains t)
    match bc.state.apply_block block with
    | none => none
    | some st1 =>
      let st2 := genesisCredit st1
      some ({ bc with chain := chain1, current_transactions := pool1, state := st2 }, block)
  else
    match bc.chain.getLast? with
    | none => none
    | some tip =>
      let sortedPool := sortTxns bc.current_transactions
      let block_num : Int := (bc.chain.length : Int) + 1
      let included_transactions := bc.state.validate_txns sortedPool
      let prev_block_hash := tip.hash
      let block : Block := ⟨block_num, included_transactions, prev_block_hash, miner⟩
      let chain1 := bc.chain ++ [block]
      let pool1 := sortedPool.filter fun t => !(included_transactions.contains t)
      match bc.state.apply_block block with
      | none => none
      | some st1 =>
        some ({ bc with chain := chain1, current_transactions := pool1, state := st1 }, block)

/-- Python method Blockchain.__mine_new_block_in_thread after the timed
wait: the local commit above, followed by the broadcast loop over the
encoded block.  The result is the committed orchestrator state, the block,
and the outcome of the broadcast loop. -/
def Blockchain.mine_new_block_in_thread (bc : Blockchain) (genesis : Bool)
    (post : Nat → BlockData → Except String Unit) :
    Option (Blockchain × Block × List Nat × Option String) :=
  match bc.mine_commit genesis with
  | none => none
  | some (bc1, block) =>
    match broadcastLoop post bc.node_identifier block.encode bc.nodes with
    | (attempted, err) => some (bc1, block, attempted, err)

/-- Commit a transaction batch to a balances map: apply the transfer of
each transaction in order (decrement the sender, increment or initialize
the recipient), exactly the balance effect of State.apply_transaction. -/
def commitTxns (b : Balances) (txns : List Transaction) : Option Balances :=
  txns.foldlM (fun bb t => transferUpd bb t.sender t.recipient t.amount) b

/-- Every recorded balance is non-negative. -/
def NonNeg (b : Balances) : Prop := ∀ a v, b a = some v → 0 ≤ v

/-- Iterate the round-robin successor function k times from a starting
miner identity. -/
def iterNext (nodes : List Nat) (m : Nat) : Nat → Option Nat
  | 0 => some m
  | k + 1 => (iterNext nodes m k).bind fun x => nextMinerId x nodes

/-- Whether some transaction of the list names the account as sender or
as recipient. -/
def touchesB (txns : List Transaction) (a : String) : Bool :=
  txns.any fun t => t.sender == a || t.recipient == a

/-- Net balance change that a transaction list causes for an account:
credits as recipient minus debits as sender. -/
def blockDelta (txns : List Transaction) (a : String) : Int :=
  (txns.map fun t =>
    (if t.recipient = a then t.amount else 0) - (if t.sender = a then t.amount else 0)).sum

/-- Histories are well-formed for committing a block with the given
number: every recorded history list is nonempty and mentions only other
block numbers. -/
def FreshHist (u : Updates) (bn : Int) : Prop :=
  ∀ a l, u a = some l → l ≠ [] ∧ ∀ q ∈ l, q.1 ≠ bn

/-- Invariant of the history dict while the transactions of one block are
being recorded: an account touched by the processed prefix carries its
original history extended by exactly one entry for this block, holding the
net delta of the prefix; an untouched account is unchanged. -/
def HistInv (u0 : Updates) (bn : Int) (done : List Transaction) (u : Updates) : Prop :=
  ∀ a, (touchesB done a = true → u a = some ((u0 a).getD [] ++ [(bn, blockDelta done a)]))
     ∧ (touchesB done a = false → u a = u0 a)

/-- Total balance held by the accounts of a list. -/
def totalOver (accts : List String) (b : Balances) : Int :=
  (accts.map fun a => (b a).getD 0).sum

/-- Chain well-formedness for leader rotation: the first block is mined by
the minimum node identity and each later block by the round-robin
successor of its predecessor miner. -/
def minersOk (nodes : List Nat) (chain : List Block) : Prop :=
  (∀ b ∈ chain.head?, nodes.min? = some b.miner) ∧
  List.Chain' (fun x y => nextMinerId x.miner nodes = some y.miner) chain

/-- Modelled from the spec: the orchestrator step relation.  The code that
decides when a mining cycle is triggered (the HTTP routes and the periodic
scheduler of the repository) is not under src/; following the
specification (a deterministically rotating leader proposes, the genesis
special case applies to an empty chain), a node runs the genesis mining
cycle only on an empty chain when it holds the minimum identity, and a
regular mining cycle only when it is the round-robin successor of the tip
miner.  Acceptance of a peer block is the accept operation itself. -/
inductive Step : Blockchain → Blockchain → Prop
  | mine_genesis (bc bc' : Blockchain) (blk : Block) (att : List Nat) (err : Option String)
      (post : Nat → BlockData → Except String Unit)
      (hchain : bc.chain = [])
      (hleader : bc.nodes.min? = some bc.node_identifier)
      (hrun : bc.mine_new_block_in_thread true post = some (bc', blk, att, err)) :
      Step bc bc'
  | mine_next (bc bc' : Blockchain) (tip blk : Block) (att : List Nat) (err : Option String)
      (post : Nat → BlockData → Except String Unit)
      (htip : bc.chain.getLast? = some tip)
      (hleader : next_miner tip bc.nodes = some bc.node_identifier)
      (hrun : bc.mine_new_block_in_thread false post = some (bc', blk, att, err)) :
      Step bc bc'
  | accept_peer (bc bc' : Blockchain) (blk : Block) (claimed : String)
      (hrun : bc.accept blk claimed = some (true, bc')) :
      Step bc bc'

/-- Reflexive-transitive closure of the orchestrator step relation. -/
inductive Reach : Blockchain → Blockchain → Prop
  | refl (bc : Blockchain) : Reach bc bc
  | tail (bc1 bc2 bc3 : Blockchain) : Reach bc1 bc2 → Step bc2 bc3 → Reach bc1 bc3

/-- The five acceptance checks of Blockchain.is_new_block_valid as a
proposition: recomputed hash matches the claimed hash, previous hash
matches the tip (or the genesis sentinel), batch validation reproduces the
transaction list exactly, the block number is the successor of the tip
number (or 1), and the miner is the expected round-robin leader. -/
def acceptChecks (bc : Blockchain) (block : Block) (claimed_hash : String) : Prop :=
  block.hash = claimed_hash ∧
  block.previous_hash = prevHashOf bc.chain ∧
  bc.state.validate_txns block.transactions = block.transactions ∧
  block.number = nextNumberOf bc.chain ∧
  expectedMinerOf bc.chain bc.nodes = some block.miner

/-- Scenario ledger state of the specification and of src/mytest.py:
account A holds 10000 and nothing else is recorded. -/
def stScenario : State := ⟨dset (fun _ => none) "A" 10000, fun _ => none⟩

/-- Scenario transaction batch of the specification and of src/mytest.py. -/
def scenarioTxns : List Transaction :=
  [⟨"A", "B", 2500⟩, ⟨"A", "B", 3000⟩, ⟨"A", "C", 550⟩,
   ⟨"A", "C", 2800⟩, ⟨"A", "B", 1000⟩, ⟨"A", "C", 550⟩]

/-- The first five transactions of the scenario batch. -/
def scenarioFirstFive : List Transaction :=
  [⟨"A", "B", 2500⟩, ⟨"A", "B", 3000⟩, ⟨"A", "C", 550⟩,
   ⟨"A", "C", 2800⟩, ⟨"A", "B", 1000⟩]

/-- Concrete two-node orchestrator used to witness the acceptance claims. -/
def bcEx1 : Blockchain := Blockchain.init [0, 1] 0

/-- Concrete genesis block extending the empty chain of bcEx1. -/
def blkEx1 : Block := ⟨1, [], "0xfeedcafe", 0⟩

/-- The result of accepting blkEx1 on bcEx1 with its correct hash. -/
def resEx1 : Bool × Blockchain := (bcEx1.accept blkEx1 blkEx1.hash).getD (false, bcEx1)

/-- Delivery oracle where every post succeeds. -/
def postOk : Nat → BlockData → Except String Unit := fun _ _ => Except.ok ()

/-- Delivery oracle where the post to peer 1 raises a connection error. -/
def postFail1 : Nat → BlockData → Except String Unit :=
  fun n _ => if n = 1 then Except.error "connection refused" else Except.ok ()

/-- Concrete three-node orchestrator used for the broadcast claims. -/
def bcEx8 : Blockchain := Blockchain.init [0, 1, 2] 0

/-- The full result of a genesis mining cycle of bcEx8 under postOk. -/
def mineRes8 : Blockchain × Block × List Nat × Option String :=
  (bcEx8.mine_new_block_in_thread true postOk).getD (bcEx8, ⟨1, [], "0xfeedcafe", 0⟩, [], none)

/-- Concrete two-node orchestrator used to witness the reachability claim. -/
def bcEx5 : Blockchain := Blockchain.init [0, 1] 0

/-- The full result of a genesis mining cycle of bcEx5 under postOk. -/
def mineRes5 : Blockchain × Block × List Nat × Option String :=
  (bcEx5.mine_new_block_in_thread true postOk).getD (bcEx5, ⟨1, [], "0xfeedcafe", 0⟩, [], none)

/-- Concrete ledger state used to witness the history and conservation
claims: account A holds 10000 and has the genesis history entry. -/
def stW9 : State :=
  ⟨dset (fun _ => none) "A" 10000, dset (fun _ => none) "A" [((1 : Int), (10000 : Int))]⟩

/-- Concrete block number 2 paying 5 from A to B. -/
def blkW9 : Block := ⟨2, [⟨"A", "B", 5⟩], "ph", 0⟩

/-- The ledger state after applying blkW9 to stW9. -/
def stW9' : State := (stW9.apply_block blkW9).getD State.init

/-- C7: decoding the canonical encoding of a Transaction or of a Block
yields a value whose fields (for a Block: number, transactions,
previous hash, miner, and the recomputed hash) equal those of the
original. -/
theorem encode_decode_roundtrip :
    (∀ t : Transaction, Transaction.decode t.encode = t) ∧
    (∀ b : Block, (Block.decode b.encode).number = b.number ∧
      (Block.decode b.encode).transactions = b.transactions ∧
      (Block.decode b.encode).previous_hash = b.previous_hash ∧
      (Block.decode b.encode).miner = b.miner ∧
      (Block.decode b.encode).hash = b.hash) := by
  have htl : ∀ l : List Transaction, (l.map Transaction.encode).map Transaction.decode = l := by
    intro l
    induction l with
    | nil => rfl
    | cons t rest ih =>
      rw [List.map_cons, List.map_cons, ih]
      rfl
  have hb : ∀ b : Block, Block.decode b.encode = b := by
    intro b
    cases b with
    | mk n txs ph m => simp [Block.decode, Block.encode, htl]
  exact ⟨fun t => rfl, fun b => by rw [hb b]; exact ⟨rfl, rfl, rfl, rfl, rfl⟩⟩

/-- C3, counterexample: submitting the same (sender, recipient, amount)
triple twice to an empty pool leaves two entries for it, not one, because
Blockchain.new_transaction appends unconditionally. -/
theorem new_transaction_duplicate_counterexample :
    (((Blockchain.init [0] 0).new_transaction "A" "B" 5).new_transaction "A" "B"
        5).current_transactions.count ⟨"A", "B", 5⟩ = 2 ∧
    (((Blockchain.init [0] 0).new_transaction "A" "B" 5).new_transaction "A" "B"
        5).current_transactions ≠ [⟨"A", "B", 5⟩] := by
  constructor
  · decide
  · decide

/-- C3, amended: pool admission appends the constructed transaction
unconditionally, with no duplicate check, so submitting the same triple
twice adds two pool entries for it and duplicate triples are admitted. -/
theorem new_transaction_always_appends :
    ∀ (bc : Blockchain) (s r : String) (a : Int),
      ((bc.new_transaction s r a).new_transaction s r a).current_transactions
        = bc.current_transactions ++ [⟨s, r, a⟩, ⟨s, r, a⟩] ∧
      ((bc.new_transaction s r a).new_transaction s r a).current_transactions.count ⟨s, r, a⟩
        = bc.current_transactions.count ⟨s, r, a⟩ + 2 := by
  intro bc s r a
  constructor
  · simp [Blockchain.new_transaction]
  · simp [Blockchain.new_transaction, List.count_append]

/-- The kept transactions of the validation comprehension form a sublist
(subsequence in original order) of the input. -/
theorem validateAux_sublist :
    ∀ (txns : List Transaction) (b : Balances), List.Sublist (validateAux txns b).1 txns := by
  intro txns
  induction txns with
  | nil => intro b; simp [validateAux]
  | cons t rest ih =>
    intro b
    unfold validateAux
    cases hv : State.valid t b with
    | mk ok b2 =>
      cases ok with
      | false => exact List.Sublist.cons t (ih b2)
      | true => exact List.Sublist.cons₂ t (ih b2)

/-- C4: batch validation is cumulative over a scratch copy of the current
balances: transactions are checked in input order against the snapshot as
mutated by the earlier accepted ones, the accepted transactions are
returned in original relative order (a sublist of the input), and on the
scenario with balances A = 10000 the six-transaction batch keeps exactly
the first five and committing them yields A = 150, B = 6500, C = 3350
(the authoritative balances are a value here, so validation cannot mutate
them by construction). -/
theorem validate_txns_cumulative_scenario :
    (∀ (st : State) (txns : List Transaction), List.Sublist (st.validate_txns txns) txns) ∧
    stScenario.validate_txns scenarioTxns = scenarioFirstFive ∧
    (commitTxns stScenario.balances (stScenario.validate_txns scenarioTxns)).map
        (fun b => (b "A", b "B", b "C"))
      = some (some 150, some 6500, some 3350) := by
  refine ⟨fun st txns => validateAux_sublist txns st.balances, by decide, by decide⟩

/-- When validation accepts a transaction, the snapshot it returns is
exactly the result of the shared transfer mutation. -/
theorem valid_true_transferUpd {t : Transaction} {b b2 : Balances}
    (h : State.valid t b = (true, b2)) :
    transferUpd b t.sender t.recipient t.amount = some b2 := by
  unfold State.valid at h
  split at h
  · simp at h
  · split at h
    · simp at h
    · split at h
      · simp at h
      · split at h
        next temp2 heq =>
          rw [heq]
          simp at h
          rw [h]
        next heq => simp at h

/-- When validation rejects a transaction, the snapshot is unchanged. -/
theorem valid_false_eq {t : Transaction} {b b2 : Balances}
    (h : State.valid t b = (false, b2)) : b2 = b := by
  unfold State.valid at h
  split at h
  · simp at h; exact h.symm
  · split at h
    · simp at h; exact h.symm
    · split at h
      · simp at h; exact h.symm
      · split at h
        next temp2 heq => simp at h
        next heq => simp at h; exact h.symm

/-- When validation accepts a transaction against a non-negative snapshot,
the mutated snapshot stays non-negative. -/
theorem valid_true_nonneg {t : Transaction} {b b2 : Balances}
    (h : State.valid t b = (true, b2)) (hb : NonNeg b) : NonNeg b2 := by
  unfold State.valid at h
  split at h
  · simp at h
  next hsome =>
    split at h
    · simp at h
    next hamt =>
      split at h
      · simp at h
      next hbal =>
        split at h
        next temp2 heq =>
          simp at h
          subst h
          -- extract the sender balance
          cases hbs : b t.sender with
          | none => rw [hbs] at hsome; simp at hsome
          | some sbal =>
            rw [hbs] at hbal
            simp at hbal
            unfold transferUpd at heq
            simp only [] at heq
            -- the scrutinee of the match in transferUpd
            cases hv : dset b t.recipient ((b t.recipient).getD 0 + t.amount) t.sender with
            | none => rw [hv] at heq; simp at heq
            | some v =>
              rw [hv] at heq
              simp at heq
              subst heq
              intro a w hw
              unfold dset at hw hv
              by_cases has : a = t.sender
              · rw [if_pos has] at hw
                -- the written sender value is v - amount
                cases hw
                by_cases hsr : t.sender = t.recipient
                · rw [if_pos hsr] at hv
                  rw [← hsr, hbs] at hv
                  simp at hv
                  subst hv
                  omega
                · rw [if_neg hsr, hbs] at hv
                  cases hv
                  omega
              · rw [if_neg has] at hw
                by_cases har : a = t.recipient
                · rw [if_pos har] at hw
                  cases hw
                  cases hbr : b t.recipient with
                  | none => simp [hbr]; omega
                  | some rv =>
                    have := hb t.recipient rv hbr
                    simp [hbr]
                    omega
                · rw [if_neg har] at hw
                  exact hb a w hw
        next heq => simp at h

/-- Committing the kept transactions of the validation comprehension to
the starting balances succeeds and lands exactly on the final snapshot of
the comprehension. -/
theorem validateAux_commit :
    ∀ (txns : List Transaction) (b : Balances),
      commitTxns b (validateAux txns b).1 = some (validateAux txns b).2 := by
  intro txns
  induction txns with
  | nil => intro b; rfl
  | cons t rest ih =>
    intro b
    unfold validateAux
    cases hv : State.valid t b with
    | mk ok b2 =>
      cases ok with
      | false =>
        have hb2 : b2 = b := valid_false_eq hv
        subst hb2
        exact ih b2
      | true =>
        have ht := valid_true_transferUpd hv
        show commitTxns b (t :: (validateAux rest b2).1) = some (validateAux rest b2).2
        unfold commitTxns
        rw [List.foldlM_cons, ht]
        exact ih b2

/-- The final snapshot of the validation comprehension is non-negative
whenever the starting snapshot is. -/
theorem validateAux_nonneg :
    ∀ (txns : List Transaction) (b : Balances), NonNeg b → NonNeg (validateAux txns b).2 := by
  intro txns
  induction txns with
  | nil => intro b hb; exact hb
  | cons t rest ih =>
    intro b hb
    unfold validateAux
    cases hv : State.valid t b with
    | mk ok b2 =>
      cases ok with
      | false =>
        have hb2 : b2 = b := valid_false_eq hv
        subst hb2
        exact ih b2 hb
      | true => exact ih b2 (valid_true_nonneg hv hb)

/-- C2: for every ledger state with non-negative balances and every input
batch, committing the subset kept by validate_txns (applying each kept
transaction in order, decrementing its sender and incrementing its
recipient) succeeds and leaves every account balance non-negative. -/
theorem validate_txns_commit_nonneg :
    ∀ (st : State) (txns : List Transaction), NonNeg st.balances →
      ∃ b2, commitTxns st.balances (st.validate_txns txns) = some b2 ∧ NonNeg b2 := by
  intro st txns h
  exact ⟨(validateAux txns st.balances).2, validateAux_commit txns st.balances,
    validateAux_nonneg txns st.balances h⟩

/-- Witness for C2 at the scenario state and batch. -/
theorem validate_txns_commit_nonneg_witness :
    NonNeg stScenario.balances ∧
    ∃ b2, commitTxns stScenario.balances (stScenario.validate_txns scenarioTxns) = some b2 ∧
      NonNeg b2 := by
  have h : NonNeg stScenario.balances := by
    intro a v hv
    unfold stScenario dset at hv
    simp only [] at hv
    split at hv
    · cases hv; omega
    · cases hv
  exact ⟨h, validate_txns_commit_nonneg stScenario scenarioTxns h⟩

/-- Python list.index finds the position of any element of a
duplicate-free list. -/
theorem pyIndex_get :
    ∀ (l : List Nat), l.Nodup → ∀ (i : Fin l.length), pyIndex l (l.get i) = some i.val := by
  intro l
  induction l with
  | nil => intro _ i; exact absurd i.isLt (by simp)
  | cons a rest ih =>
    intro hnd i
    rcases i with ⟨iv, hi⟩
    cases iv with
    | zero => simp [pyIndex]
    | succ j =>
      have hj : j < rest.length := by simpa using hi
      have hna : a ∉ rest := (List.nodup_cons.mp hnd).1
      have hne : a ≠ rest.get ⟨j, hj⟩ := by
        intro hcontra
        exact hna (hcontra ▸ List.get_mem rest j hj)
      simp only [List.get_cons_succ, pyIndex, if_neg hne]
      rw [ih (List.nodup_cons.mp hnd).2 ⟨j, hj⟩]
      rfl

/-- On a duplicate-free node list, the round-robin successor of the entry
at index i is the entry at index i + 1 modulo the length. -/
theorem nextMinerId_get (l : List Nat) (hnd : l.Nodup) (i : Fin l.length) :
    nextMinerId (l.get i) l
      = some (l.get ⟨(i.val + 1) % l.length,
          Nat.mod_lt _ (lt_of_le_of_lt (Nat.zero_le _) i.isLt)⟩) := by
  unfold nextMinerId
  rw [pyIndex_get l hnd i]
  rw [Option.some_bind]
  exact List.get?_eq_get _

/-- Closed form for the iterated round-robin successor on a duplicate-free
node list: k steps from the entry at index i0 land on the entry at index
i0 + k modulo the length. -/
theorem iterNext_formula (l : List Nat) (hnd : l.Nodup) (i0 : Fin l.length) :
    ∀ k, iterNext l (l.get i0) k
      = some (l.get ⟨(i0.val + k) % l.length,
          Nat.mod_lt _ (lt_of_le_of_lt (Nat.zero_le _) i0.isLt)⟩) := by
  intro k
  induction k with
  | zero =>
    simp only [iterNext]
    congr 1
    congr 1
    exact (Fin.ext (by simp [Nat.mod_eq_of_lt i0.isLt])).symm
  | succ k ih =>
    show (iterNext l (l.get i0) k).bind (fun x => nextMinerId x l) = _
    rw [ih, Option.some_bind, nextMinerId_get l hnd]
    congr 1
    congr 1
    apply Fin.ext
    show ((i0.val + k) % l.length + 1) % l.length = (i0.val + (k + 1)) % l.length
    rw [Nat.mod_add_mod, Nat.add_assoc]

/-- C6: next_miner is a pure function of the previous miner identity and
the node list (it reads only the miner field of the block, locates it,
advances by one and wraps modulo the length), and on every duplicate-free
node list containing the starting miner the iterated successor makes a
full cycle: the first N iterates are pairwise distinct, the N-th iterate
returns to the start, and every identity of the list is visited within the
first N iterates. -/
theorem next_miner_cycle :
    ∀ (nodes : List Nat) (m : Nat), nodes.Nodup → m ∈ nodes →
      (∀ b : Block, b.miner = m → next_miner b nodes = nextMinerId m nodes) ∧
      (∀ k j, k < j → j < nodes.length → iterNext nodes m k ≠ iterNext nodes m j) ∧
      iterNext nodes m nodes.length = some m ∧
      (∀ x, x ∈ nodes → ∃ k, k < nodes.length ∧ iterNext nodes m k = some x) := by
  intro nodes m hnd hm
  obtain ⟨i0, hi0⟩ : ∃ i : Fin nodes.length, nodes.get i = m := List.mem_iff_get.mp hm
  have hpos : 0 < nodes.length := lt_of_le_of_lt (Nat.zero_le _) i0.isLt
  subst hi0
  refine ⟨fun b hb => by rw [next_miner, hb], ?_, ?_, ?_⟩
  · intro k j hkj hj hcontra
    have hk : k < nodes.length := lt_trans hkj hj
    rw [iterNext_formula nodes hnd i0 k, iterNext_formula nodes hnd i0 j] at hcontra
    have heq := (List.Nodup.get_inj_iff hnd).mp (Option.some.inj hcontra)
    have hv : (i0.val + k) % nodes.length = (i0.val + j) % nodes.length :=
      congrArg Fin.val heq
    have hmodeq : k ≡ j [MOD nodes.length] := Nat.ModEq.add_left_cancel' i0.val hv
    have : k % nodes.length = j % nodes.length := hmodeq
    rw [Nat.mod_eq_of_lt hk, Nat.mod_eq_of_lt hj] at this
    omega
  · rw [iterNext_formula nodes hnd i0 nodes.length]
    congr 1
    congr 1
    apply Fin.ext
    show (i0.val + nodes.length) % nodes.length = i0.val
    rw [Nat.add_mod_right, Nat.mod_eq_of_lt i0.isLt]
  · intro x hx
    obtain ⟨j, hj⟩ : ∃ i : Fin nodes.length, nodes.get i = x := List.mem_iff_get.mp hx
    refine ⟨(nodes.length + j.val - i0.val) % nodes.length, Nat.mod_lt _ hpos, ?_⟩
    rw [iterNext_formula nodes hnd i0]
    rw [← hj]
    congr 1
    congr 1
    apply Fin.ext
    show (i0.val + (nodes.length + j.val - i0.val) % nodes.length) % nodes.length = j.val
    rw [Nat.add_mod_mod]
    have harith : i0.val + (nodes.length + j.val - i0.val) = nodes.length + j.val := by
      have := i0.isLt
      omega
    rw [harith, Nat.add_mod_left, Nat.mod_eq_of_lt j.isLt]

/-- Witness for C6 on the node list 3, 5, 9 starting from 5. -/
theorem next_miner_cycle_witness :
    ([3, 5, 9].Nodup ∧ 5 ∈ [3, 5, 9]) ∧
    iterNext [3, 5, 9] 5 3 = some 5 ∧
    iterNext [3, 5, 9] 5 1 ≠ iterNext [3, 5, 9] 5 2 := by
  have h := next_miner_cycle [3, 5, 9] 5 (by decide) (by decide)
  exact ⟨⟨by decide, by decide⟩, h.2.2.1, h.2.1 1 2 (by decide) (by decide)⟩

/-- A True result of is_new_block_valid implies all five checks and that
the returned state is the block applied on top of the (possibly
genesis-credited) current state. -/
theorem inbv_true_spec {bc : Blockchain} {block : Block} {claimed : String} {st1 : State}
    (h : bc.is_new_block_valid block claimed = some (true, st1)) :
    acceptChecks bc block claimed ∧
    (if block.number = 1 then genesisCredit bc.state else bc.state).apply_block block
      = some st1 := by
  unfold Blockchain.is_new_block_valid at h
  split at h
  · simp at h
  next h1 =>
    split at h
    · simp at h
    next h2 =>
      split at h
      · simp at h
      next h3 =>
        split at h
        · simp at h
        next h4 =>
          split at h
          next heqm => simp at h
          next nxt heqm =>
            split at h
            · simp at h
            next h5 =>
              rw [Option.map_eq_some'] at h
              obtain ⟨st', hst', hpair⟩ := h
              have hst1 : st' = st1 := by
                have := congrArg Prod.snd hpair
                simpa using this
              subst hst1
              have hm : block.miner = nxt := not_not.mp h5
              exact ⟨⟨not_not.mp h1, not_not.mp h2, not_not.mp h3, not_not.mp h4,
                by rw [heqm, hm]⟩, hst'⟩

/-- A False result of is_new_block_valid implies the state is untouched
and at least one of the five checks fails. -/
theorem inbv_false_spec {bc : Blockchain} {block : Block} {claimed : String} {st1 : State}
    (h : bc.is_new_block_valid block claimed = some (false, st1)) :
    st1 = bc.state ∧ ¬ acceptChecks bc block claimed := by
  unfold Blockchain.is_new_block_valid at h
  split at h
  next h1 =>
    have : st1 = bc.state := by simpa using (congrArg (fun o => o.map Prod.snd) h).symm
    exact ⟨this, fun hc => h1 hc.1⟩
  next h1 =>
    split at h
    next h2 =>
      have : st1 = bc.state := by simpa using (congrArg (fun o => o.map Prod.snd) h).symm
      exact ⟨this, fun hc => h2 hc.2.1⟩
    next h2 =>
      split at h
      next h3 =>
        have : st1 = bc.state := by simpa using (congrArg (fun o => o.map Prod.snd) h).symm
        exact ⟨this, fun hc => h3 hc.2.2.1⟩
      next h3 =>
        split at h
        next h4 =>
          have : st1 = bc.state := by simpa using (congrArg (fun o => o.map Prod.snd) h).symm
          exact ⟨this, fun hc => h4 hc.2.2.2.1⟩
        next h4 =>
          split at h
          next heqm => simp at h
          next nxt heqm =>
            split at h
            next h5 =>
              have : st1 = bc.state := by
                simpa using (congrArg (fun o => o.map Prod.snd) h).symm
              refine ⟨this, fun hc => h5 ?_⟩
              have := hc.2.2.2.2
              rw [heqm] at this
              exact (Option.some.inj this).symm
            next h5 =>
              rw [Option.map_eq_some'] at h
              obtain ⟨st', _, hpair⟩ := h
              exact absurd (congrArg Prod.fst hpair) (by simp)

/-- C1: the acceptance operation (is_new_block_valid plus the
spec-modelled chain append of the ingestion route) accepts exactly when
the five checks hold; on acceptance the block is appended to the chain and
its transactions are committed to the ledger state (with the genesis
bootstrap credit for block number 1), the pool and node list untouched; on
rejection every component of the orchestrator state is unchanged. -/
theorem accept_accepts_iff_checks :
    ∀ (bc : Blockchain) (block : Block) (claimed : String) (res : Bool × Blockchain),
      bc.accept block claimed = some res →
      ((res.1 = true) ↔ acceptChecks bc block claimed) ∧
      (res.1 = true →
        res.2.chain = bc.chain ++ [block] ∧
        (if block.number = 1 then genesisCredit bc.state else bc.state).apply_block block
          = some res.2.state ∧
        res.2.nodes = bc.nodes ∧
        res.2.current_transactions = bc.current_transactions) ∧
      (res.1 = false → res.2 = bc) := by
  intro bc block claimed res h
  unfold Blockchain.accept at h
  cases hi : bc.is_new_block_valid block claimed with
  | none => rw [hi] at h; simp at h
  | some r =>
    rw [hi, Option.map_some'] at h
    rcases r with ⟨ok, st1⟩
    cases ok with
    | true =>
      have hspec := inbv_true_spec hi
      have hres : res = (true, { bc with state := st1, chain := bc.chain ++ [block] }) :=
        (Option.some.inj h).symm
      subst hres
      refine ⟨iff_of_true rfl hspec.1, fun _ => ⟨rfl, hspec.2, rfl, rfl⟩, fun hf => ?_⟩
      simp at hf
    | false =>
      have hspec := inbv_false_spec hi
      have hres : res = (false, { bc with state := st1 }) := (Option.some.inj h).symm
      subst hres
      rw [hspec.1]
      refine ⟨iff_of_false (by simp) hspec.2, fun ht => ?_, fun _ => rfl⟩
      simp at ht

/-- Witness for C1: the two-node orchestrator bcEx1 accepts the concrete
genesis block blkEx1 under its correct hash. -/
theorem accept_accepts_iff_checks_witness :
    bcEx1.accept blkEx1 blkEx1.hash = some resEx1 ∧
    ((resEx1.1 = true) ↔ acceptChecks bcEx1 blkEx1 blkEx1.hash) ∧
    resEx1.1 = true := by
  have hsome : bcEx1.accept blkEx1 blkEx1.hash = some resEx1 := rfl
  exact ⟨hsome, (accept_accepts_iff_checks bcEx1 blkEx1 blkEx1.hash resEx1 hsome).1,
    by decide⟩

/-- When the broadcast loop finishes without an error, it attempted
delivery to exactly the peers of the node list other than the own
identity, in order. -/
theorem broadcastLoop_none (post : Nat → BlockData → Except String Unit) (selfid : Nat)
    (payload : BlockData) :
    ∀ (nodes att : List Nat), broadcastLoop post selfid payload nodes = (att, none) →
      att = nodes.filter (fun n => n != selfid) := by
  intro nodes
  induction nodes with
  | nil =>
    intro att h
    simp [broadcastLoop] at h
    subst h
    rfl
  | cons n rest ih =>
    intro att h
    unfold broadcastLoop at h
    by_cases hn : n = selfid
    · rw [if_pos hn] at h
      rw [List.filter_cons_of_neg (by simp [hn])]
      exact ih att h
    · rw [if_neg hn] at h
      cases hp : post n payload with
      | ok u =>
        rw [hp] at h
        cases hbl : broadcastLoop post selfid payload rest with
        | mk l e =>
          rw [hbl] at h
          have hatt : att = n :: l := (congrArg Prod.fst h).symm
          have he : e = none := congrArg Prod.snd h
          subst he
          rw [List.filter_cons_of_pos (by simp [hn])]
          rw [hatt, ih l hbl]
      | error e =>
        rw [hp] at h
        exact absurd (congrArg Prod.snd h) (by simp)

/-- When the broadcast loop escapes with an error, the node list splits
around a first failing peer: every earlier peer other than the own
identity was attempted (successfully), the failing peer was attempted
last, and no later peer was attempted. -/
theorem broadcastLoop_some (post : Nat → BlockData → Except String Unit) (selfid : Nat)
    (payload : BlockData) :
    ∀ (nodes att : List Nat) (e : String),
      broadcastLoop post selfid payload nodes = (att, some e) →
      ∃ l1 p l2, nodes = l1 ++ p :: l2 ∧ p ≠ selfid ∧ post p payload = Except.error e ∧
        att = l1.filter (fun n => n != selfid) ++ [p] := by
  intro nodes
  induction nodes with
  | nil =>
    intro att e h
    simp [broadcastLoop] at h
  | cons n rest ih =>
    intro att e h
    unfold broadcastLoop at h
    by_cases hn : n = selfid
    · rw [if_pos hn] at h
      obtain ⟨l1, p, l2, hsplit, hp, herr, hatt⟩ := ih att e h
      refine ⟨n :: l1, p, l2, by rw [hsplit]; rfl, hp, herr, ?_⟩
      rw [List.filter_cons_of_neg (by simp [hn])]
      exact hatt
    · rw [if_neg hn] at h
      cases hp : post n payload with
      | ok u =>
        rw [hp] at h
        cases hbl : broadcastLoop post selfid payload rest with
        | mk l e2 =>
          rw [hbl] at h
          have hatt : att = n :: l := (congrArg Prod.fst h).symm
          have he : e2 = some e := congrArg Prod.snd h
          subst he
          obtain ⟨l1, p, l2, hsplit, hp2, herr, hatt2⟩ := ih l e hbl
          refine ⟨n :: l1, p, l2, by rw [hsplit]; rfl, hp2, herr, ?_⟩
          rw [List.filter_cons_of_pos (by simp [hn]), hatt, hatt2]
          rfl
      | error e2 =>
        rw [hp] at h
        have hatt : att = [n] := (congrArg Prod.fst h).symm
        have he : e2 = e := Option.some.inj (congrArg Prod.snd h)
        subst he
        exact ⟨[], n, rest, rfl, hn, hp, by rw [hatt]; rfl⟩

/-- Shape of a completed mining cycle: the broadcast outcome is exactly
the broadcast loop run after the local commit, and replacing the delivery
oracle changes only the broadcast outcome, never the committed
orchestrator state or the block. -/
theorem mine_shape (bc : Blockchain) (genesis : Bool)
    (post : Nat → BlockData → Except String Unit)
    (r : Blockchain × Block × List Nat × Option String)
    (h : bc.mine_new_block_in_thread genesis post = some r) :
    r.2.2 = broadcastLoop post bc.node_identifier (r.2.1).encode bc.nodes ∧
    ∀ post', bc.mine_new_block_in_thread genesis post'
      = some (r.1, r.2.1, broadcastLoop post' bc.node_identifier (r.2.1).encode bc.nodes) := by
  unfold Blockchain.mine_new_block_in_thread at h ⊢
  cases hc : bc.mine_commit genesis with
  | none => rw [hc] at h; simp at h
  | some p =>
    rcases p with ⟨bc1, block⟩
    rw [hc] at h
    have hr := (Option.some.inj h).symm
    subst hr
    exact ⟨rfl, fun post' => rfl⟩

/-- C8, counterexample: on the three-node orchestrator bcEx8 (own identity
0), a genesis mining cycle whose delivery to peer 1 raises a connection
error attempts delivery only to peer 1 and lets the error escape the
mining function: peer 2 is in the node list but receives no delivery
attempt, refuting the claim that a failed delivery neither prevents
delivery attempts to the remaining peers nor propagates an error out of
the mining operation. -/
theorem broadcast_failure_counterexample :
    (bcEx8.mine_new_block_in_thread true postFail1).map (fun r => (r.2.2.1, r.2.2.2))
      = some ([1], some "connection refused") ∧
    bcEx8.nodes = [0, 1, 2] ∧
    (2 : Nat) ∈ bcEx8.nodes ∧ (2 : Nat) ∉ [(1 : Nat)] := by
  refine ⟨by decide, by decide, by decide, by decide⟩

/-- C8, amended: during the mining cycle the local commit (chain append,
pool filtering, ledger application) happens before the broadcast and does
not depend on the delivery outcomes; when a delivery fails, the already
attempted peers are exactly the non-self peers preceding the failing one
plus the failing peer itself, the remaining peers are not attempted, and
the error escapes the mining function (it is absorbed only at the thread
boundary, outside this code); when no delivery fails, all non-self peers
are attempted. -/
theorem mine_commit_before_broadcast :
    ∀ (bc : Blockchain) (genesis : Bool) (post : Nat → BlockData → Except String Unit)
      (r : Blockchain × Block × List Nat × Option String),
      bc.mine_new_block_in_thread genesis post = some r →
      (∀ post', ∃ r2, bc.mine_new_block_in_thread genesis post' = some r2 ∧
        r2.1 = r.1 ∧ r2.2.1 = r.2.1) ∧
      (r.2.2.2 = none →
        r.2.2.1 = bc.nodes.filter (fun n => n != bc.node_identifier)) ∧
      (∀ e, r.2.2.2 = some e →
        ∃ l1 p l2, bc.nodes = l1 ++ p :: l2 ∧ p ≠ bc.node_identifier ∧
          post p (r.2.1).encode = Except.error e ∧
          r.2.2.1 = l1.filter (fun n => n != bc.node_identifier) ++ [p]) := by
  intro bc genesis post r h
  obtain ⟨hbl, hind⟩ := mine_shape bc genesis post r h
  refine ⟨fun post' => ⟨_, hind post', rfl, rfl⟩, ?_, ?_⟩
  · intro hnone
    apply broadcastLoop_none post bc.node_identifier (r.2.1).encode bc.nodes
    rw [← hbl, ← hnone]
  · intro e he
    apply broadcastLoop_some post bc.node_identifier (r.2.1).encode bc.nodes
    rw [← hbl, ← he]

/-- Witness for C8 amended, on the three-node orchestrator bcEx8 with the
all-successful delivery oracle. -/
theorem mine_commit_before_broadcast_witness :
    bcEx8.mine_new_block_in_thread true postOk = some mineRes8 ∧
    (mineRes8.2.2.2 = none →
      mineRes8.2.2.1 = bcEx8.nodes.filter (fun n => n != bcEx8.node_identifier)) ∧
    mineRes8.2.2.1 = [1, 2] := by
  have hsome : bcEx8.mine_new_block_in_thread true postOk = some mineRes8 := rfl
  exact ⟨hsome, (mine_commit_before_broadcast bcEx8 true postOk mineRes8 hsome).2.1,
    by decide⟩

/-- Reading a dict at the key just written. -/
theorem dset_same {α : Type} (d : String → Option α) (k : String) (v : α) :
    dset d k v k = some v := by simp [dset]

/-- Reading a dict at another key than the one written. -/
theorem dset_other {α : Type} (d : String → Option α) (k : String) (v : α) (x : String)
    (h : x ≠ k) : dset d k v x = d x := by simp [dset, h]

/-- The last entry of a history list is one of its entries. -/
theorem getLast?_some_mem {α : Type} {l : List α} {a : α} (h : l.getLast? = some a) : a ∈ l := by
  obtain ⟨hne, hx⟩ := List.mem_getLast?_eq_getLast (by rw [h]; rfl : a ∈ l.getLast?)
  rw [hx]
  exact List.getLast_mem hne

/-- Updating the history of an account whose list already ends in an entry
for this block number coalesces the delta into that entry. -/
theorem histUpd_touched (u : Updates) (x : String) (bn δ d : Int) (orig : List (Int × Int))
    (h : u x = some (orig ++ [(bn, d)])) :
    histUpd u x bn δ = some (dset u x (orig ++ [(bn, d + δ)])) := by
  unfold histUpd
  rw [h]
  simp [List.getLast?_concat, List.dropLast_concat]

/-- Updating the history of an account that is still in its original state
(fresh for this block number) appends a new entry for this block. -/
theorem histUpd_fresh {u0 : Updates} {bn : Int} (hfresh : FreshHist u0 bn)
    (u : Updates) (x : String) (δ : Int) (h : u x = u0 x) :
    histUpd u x bn δ = some (dset u x ((u0 x).getD [] ++ [(bn, δ)])) := by
  unfold histUpd
  rw [h]
  cases hu0 : u0 x with
  | none => rfl
  | some l =>
    obtain ⟨hne, hfr⟩ := hfresh x l hu0
    cases hlast : l.getLast? with
    | none => exact absurd (List.getLast?_eq_none_iff.mp hlast) hne
    | some last =>
      simp only [hlast, Option.getD_some]
      rw [if_neg (hfr last (getLast?_some_mem hlast))]

/-- Combined form of the two cases above: if an account is either fresh
with running delta zero, or already carries the accumulated entry for this
block, one more history update extends the accumulated delta. -/
theorem histUpd_acc {u0 : Updates} {bn : Int} (hfresh : FreshHist u0 bn)
    (u : Updates) (x : String) (δ d : Int)
    (hx : u x = some ((u0 x).getD [] ++ [(bn, d)]) ∨ (u x = u0 x ∧ d = 0)) :
    histUpd u x bn δ = some (dset u x ((u0 x).getD [] ++ [(bn, d + δ)])) := by
  rcases hx with hx | ⟨hx, hd⟩
  · exact histUpd_touched u x bn δ d _ hx
  · subst hd
    rw [histUpd_fresh hfresh u x δ hx, zero_add]

/-- Touching is pointwise cumulative over appending one transaction. -/
theorem touchesB_append_single (done : List Transaction) (t : Transaction) (a : String) :
    touchesB (done ++ [t]) a = (touchesB done a || (t.sender == a || t.recipient == a)) := by
  simp [touchesB, List.any_append]

/-- Net delta is cumulative over appending one transaction. -/
theorem blockDelta_append_single (done : List Transaction) (t : Transaction) (a : String) :
    blockDelta (done ++ [t]) a
      = blockDelta done a
        + ((if t.recipient = a then t.amount else 0) - (if t.sender = a then t.amount else 0)) := by
  simp [blockDelta]

/-- An account untouched by a transaction list has zero net delta. -/
theorem blockDelta_untouched (done : List Transaction) (a : String)
    (h : touchesB done a = false) : blockDelta done a = 0 := by
  induction done with
  | nil => rfl
  | cons t rest ih =>
    simp only [touchesB, List.any_cons, Bool.or_eq_false_iff, beq_eq_false_iff_ne] at h
    obtain ⟨⟨hs, hr⟩, hrest⟩ := h
    simp only [blockDelta, List.map_cons, List.sum_cons, if_neg hr, if_neg hs]
    have := ih (by simpa [touchesB] using hrest)
    simp only [blockDelta] at this
    rw [this]
    ring

/-- Plumbing for State.update_history: the two successful histUpd calls
determine its result. -/
theorem update_history_eq {st : State} {t : Transaction} {bn : Int} {u1 u2 : Updates}
    (h1 : histUpd st.updates t.sender bn (-t.amount) = some u1)
    (h2 : histUpd u1 t.recipient bn t.amount = some u2) :
    st.update_history t bn = some { st with updates := u2 } := by
  unfold State.update_history
  rw [h1]
  show (match histUpd u1 t.recipient bn t.amount with
    | none => none
    | some u3 => some { st with updates := u3 }) = some { st with updates := u2 }
  rw [h2]

/-- Recording one transaction preserves the per-block history invariant:
the touched accounts carry exactly one accumulated entry for the block
being committed, everything else is untouched. -/
theorem update_history_inv {u0 : Updates} {bn : Int} (hfresh : FreshHist u0 bn)
    {done : List Transaction} {st : State} (hinv : HistInv u0 bn done st.updates)
    {t : Transaction} {st2 : State} (h : st.update_history t bn = some st2) :
    st2.balances = st.balances ∧ HistInv u0 bn (done ++ [t]) st2.updates := by
  have hsender : histUpd st.updates t.sender bn (-t.amount)
      = some (dset st.updates t.sender
          ((u0 t.sender).getD [] ++ [(bn, blockDelta done t.sender + -t.amount)])) := by
    apply histUpd_acc hfresh
    cases hts : touchesB done t.sender with
    | true => exact Or.inl ((hinv t.sender).1 hts)
    | false => exact Or.inr ⟨(hinv t.sender).2 hts, blockDelta_untouched done t.sender hts⟩
  by_cases hrs : t.recipient = t.sender
  · -- the recipient coincides with the sender
    have hrecip : histUpd
        (dset st.updates t.sender
          ((u0 t.sender).getD [] ++ [(bn, blockDelta done t.sender + -t.amount)]))
        t.recipient bn t.amount
        = some (dset
            (dset st.updates t.sender
              ((u0 t.sender).getD [] ++ [(bn, blockDelta done t.sender + -t.amount)]))
            t.recipient
            ((u0 t.recipient).getD []
              ++ [(bn, blockDelta done t.sender + -t.amount + t.amount)])) := by
      apply histUpd_acc hfresh
      left
      rw [hrs]
      exact dset_same _ _ _
    have hst2 : st2 = { st with updates := (dset
        (dset st.updates t.sender
          ((u0 t.sender).getD [] ++ [(bn, blockDelta done t.sender + -t.amount)]))
        t.recipient
        ((u0 t.recipient).getD []
          ++ [(bn, blockDelta done t.sender + -t.amount + t.amount)])) } :=
      (Option.some.inj ((update_history_eq hsender hrecip).symm.trans h)).symm
    have hupd : st2.updates = dset
        (dset st.updates t.sender
          ((u0 t.sender).getD [] ++ [(bn, blockDelta done t.sender + -t.amount)]))
        t.recipient
        ((u0 t.recipient).getD []
          ++ [(bn, blockDelta done t.sender + -t.amount + t.amount)]) := by
      rw [hst2]
    have hbal : st2.balances = st.balances := by rw [hst2]
    refine ⟨hbal, fun a => ⟨?_, ?_⟩⟩
    · intro hta
      rw [hupd]
      by_cases has : a = t.sender
      · subst has
        rw [hrs, dset_same]
        have harith : blockDelta (done ++ [t]) t.sender
            = blockDelta done t.sender + -t.amount + t.amount := by
          rw [blockDelta_append_single, if_pos hrs, if_pos rfl]
          ring
        rw [harith]
      · have har : a ≠ t.recipient := by rw [hrs]; exact has
        rw [dset_other _ _ _ _ har, dset_other _ _ _ _ has]
        have hta2 : touchesB done a = true := by
          rw [touchesB_append_single] at hta
          simp only [Bool.or_eq_true, beq_iff_eq] at hta
          rcases hta with h1 | h2 | h3
          · exact h1
          · exact absurd h2.symm has
          · exact absurd h3.symm har
        have hdelta : blockDelta (done ++ [t]) a = blockDelta done a := by
          rw [blockDelta_append_single, if_neg (fun hh => har hh.symm),
            if_neg (fun hh => has hh.symm)]
          ring
        rw [hdelta]
        exact (hinv a).1 hta2
    · intro hfa
      rw [touchesB_append_single] at hfa
      simp only [Bool.or_eq_false_iff, beq_eq_false_iff_ne] at hfa
      obtain ⟨hfd, hfs, hfr2⟩ := hfa
      rw [hupd, dset_other _ _ _ _ (fun hh => hfr2 hh.symm),
        dset_other _ _ _ _ (fun hh => hfs hh.symm)]
      exact (hinv a).2 hfd
  · -- the recipient differs from the sender
    have hrecip : histUpd
        (dset st.updates t.sender
          ((u0 t.sender).getD [] ++ [(bn, blockDelta done t.sender + -t.amount)]))
        t.recipient bn t.amount
        = some (dset
            (dset st.updates t.sender
              ((u0 t.sender).getD [] ++ [(bn, blockDelta done t.sender + -t.amount)]))
            t.recipient
            ((u0 t.recipient).getD []
              ++ [(bn, blockDelta done t.recipient + t.amount)])) := by
      apply histUpd_acc hfresh
      have hur : (dset st.updates t.sender
          ((u0 t.sender).getD [] ++ [(bn, blockDelta done t.sender + -t.amount)]))
          t.recipient = st.updates t.recipient := dset_other _ _ _ _ hrs
      cases htr : touchesB done t.recipient with
      | true => exact Or.inl (hur.trans ((hinv t.recipient).1 htr))
      | false =>
        exact Or.inr ⟨hur.trans ((hinv t.recipient).2 htr),
          blockDelta_untouched done t.recipient htr⟩
    have hst2 : st2 = { st with updates := (dset
        (dset st.updates t.sender
          ((u0 t.sender).getD [] ++ [(bn, blockDelta done t.sender + -t.amount)]))
        t.recipient
        ((u0 t.recipient).getD []
          ++ [(bn, blockDelta done t.recipient + t.amount)])) } :=
      (Option.some.inj ((update_history_eq hsender hrecip).symm.trans h)).symm
    have hupd : st2.updates = dset
        (dset st.updates t.sender
          ((u0 t.sender).getD [] ++ [(bn, blockDelta done t.sender + -t.amount)]))
        t.recipient
        ((u0 t.recipient).getD []
          ++ [(bn, blockDelta done t.recipient + t.amount)]) := by
      rw [hst2]
    have hbal : st2.balances = st.balances := by rw [hst2]
    refine ⟨hbal, fun a => ⟨?_, ?_⟩⟩
    · intro hta
      rw [hupd]
      by_cases har : a = t.recipient
      · subst har
        rw [dset_same]
        have harith : blockDelta (done ++ [t]) t.recipient
            = blockDelta done t.recipient + t.amount := by
          rw [blockDelta_append_single, if_pos rfl, if_neg (fun hh => hrs hh.symm)]
          ring
        rw [harith]
      · by_cases has : a = t.sender
        · subst has
          rw [dset_other _ _ _ _ har, dset_same]
          have harith : blockDelta (done ++ [t]) t.sender
              = blockDelta done t.sender + -t.amount := by
            rw [blockDelta_append_single, if_neg hrs, if_pos rfl]
            ring
          rw [harith]
        · rw [dset_other _ _ _ _ har, dset_other _ _ _ _ has]
          have hta2 : touchesB done a = true := by
            rw [touchesB_append_single] at hta
            simp only [Bool.or_eq_true, beq_iff_eq] at hta
            rcases hta with h1 | h2 | h3
            · exact h1
            · exact absurd h2.symm has
            · exact absurd h3.symm har
          have hdelta : blockDelta (done ++ [t]) a = blockDelta done a := by
            rw [blockDelta_append_single, if_neg (fun hh => har hh.symm),
              if_neg (fun hh => has hh.symm)]
            ring
          rw [hdelta]
          exact (hinv a).1 hta2
    · intro hfa
      rw [touchesB_append_single] at hfa
      simp only [Bool.or_eq_false_iff, beq_eq_false_iff_ne] at hfa
      obtain ⟨hfd, hfs, hfr2⟩ := hfa
      rw [hupd, dset_other _ _ _ _ (fun hh => hfr2 hh.symm),
        dset_other _ _ _ _ (fun hh => hfs hh.symm)]
      exact (hinv a).2 hfd

/-- Applying a transfer leaves the history dict unchanged. -/
theorem apply_transaction_updates {st st2 : State} {t : Transaction}
    (h : st.apply_transaction t = some st2) : st2.updates = st.updates := by
  unfold State.apply_transaction at h
  cases htt : transferUpd st.balances t.sender t.recipient t.amount with
  | none => rw [htt] at h; simp at h
  | some b2 =>
    rw [htt] at h
    have := (Option.some.inj h).symm
    rw [this]

/-- The per-block history invariant is preserved along the fold of
State.apply_block. -/
theorem apply_block_fold_inv {u0 : Updates} {bn : Int} (hfresh : FreshHist u0 bn) :
    ∀ (txns : List Transaction) (st : State) (done : List Transaction) (st2 : State),
      HistInv u0 bn done st.updates →
      (txns.foldlM (fun s t =>
        match s.update_history t bn with
        | none => none
        | some s1 => s1.apply_transaction t) st) = some st2 →
      HistInv u0 bn (done ++ txns) st2.updates := by
  intro txns
  induction txns with
  | nil =>
    intro st done st2 hinv h
    rw [List.foldlM_nil] at h
    obtain rfl : st = st2 := Option.some.inj h
    rw [List.append_nil]
    exact hinv
  | cons t rest ih =>
    intro st done st2 hinv h
    rw [List.foldlM_cons] at h
    cases hu : st.update_history t bn with
    | none => rw [hu] at h; simp at h
    | some s1 =>
      rw [hu] at h
      replace h : (s1.apply_transaction t).bind
          (fun init => List.foldlM (fun s t =>
            match s.update_history t bn with
            | none => none
            | some s1 => s1.apply_transaction t) init rest) = some st2 := h
      cases ha : s1.apply_transaction t with
      | none => rw [ha] at h; simp at h
      | some s2 =>
        rw [ha] at h
        simp only [Option.some_bind] at h
        have hinv1 := (update_history_inv hfresh hinv hu).2
        have hinv2 : HistInv u0 bn (done ++ [t]) s2.updates := by
          rw [apply_transaction_updates ha]
          exact hinv1
        have hres := ih s2 (done ++ [t]) st2 hinv2 h
        rwa [List.append_assoc, List.singleton_append] at hres

/-- C9: after committing a block to a ledger state whose histories are
nonempty and mention only other block numbers, every account history
carries at most one entry keyed by that block number, and the summed
deltas of such entries equal the net balance change (credits as recipient
minus debits as sender) that the block transactions caused for the
account; in particular several deltas for one account within the block are
coalesced into that single summed entry. -/
theorem update_history_coalesce :
    ∀ (st : State) (b : Block) (st2 : State),
      FreshHist st.updates b.number →
      st.apply_block b = some st2 →
      ∀ a, (((st2.updates a).getD []).filter (fun q => q.1 = b.number)).length ≤ 1 ∧
        ((((st2.updates a).getD []).filter (fun q => q.1 = b.number)).map Prod.snd).sum
          = blockDelta b.transactions a := by
  intro st b st2 hfresh h a
  have hbase : HistInv st.updates b.number [] st.updates := by
    intro a2
    constructor
    · intro ht; simp [touchesB] at ht
    · intro _; rfl
  unfold State.apply_block at h
  have hinv := apply_block_fold_inv hfresh b.transactions st [] st2 hbase h
  rw [List.nil_append] at hinv
  have horigfilter : ∀ l, st.updates a = some l →
      l.filter (fun q => q.1 = b.number) = [] := by
    intro l hl
    rw [List.filter_eq_nil_iff]
    intro q hq
    simpa using (hfresh a l hl).2 q hq
  cases ht : touchesB b.transactions a with
  | true =>
    have hres := (hinv a).1 ht
    rw [hres]
    simp only [Option.getD_some, List.filter_append]
    have hsingle : List.filter (fun q => decide (q.1 = b.number))
        [(b.number, blockDelta b.transactions a)]
        = [(b.number, blockDelta b.transactions a)] := by
      simp
    cases hl : st.updates a with
    | none =>
      simp only [Option.getD_none, List.filter_nil, List.nil_append]
      constructor
      · simp [hsingle]
      · simp
    | some l =>
      simp only [Option.getD_some]
      rw [horigfilter l hl]
      constructor
      · simp [hsingle]
      · simp
  | false =>
    have hres := (hinv a).2 ht
    rw [hres]
    have hd0 : blockDelta b.transactions a = 0 := blockDelta_untouched _ _ ht
    cases hl : st.updates a with
    | none => simp [hd0]
    | some l =>
      rw [hd0]
      simp only [Option.getD_some, horigfilter l hl]
      constructor
      · simp
      · simp

/-- Witness for C9: committing block blkW9 (number 2, one payment of 5
from A to B) on the concrete state stW9 yields for account A exactly one
entry for block 2 whose delta sums to the net change of A. -/
theorem update_history_coalesce_witness :
    FreshHist stW9.updates blkW9.number ∧ stW9.apply_block blkW9 = some stW9' ∧
    ((((stW9'.updates "A").getD []).filter (fun q => q.1 = blkW9.number)).map Prod.snd).sum
      = blockDelta blkW9.transactions "A" ∧
    (((stW9'.updates "A").getD []).filter (fun q => q.1 = blkW9.number)).length ≤ 1 := by
  have hfresh : FreshHist stW9.updates blkW9.number := by
    intro a l hl
    unfold stW9 dset at hl
    simp only [] at hl
    split at hl
    · cases hl
      refine ⟨by simp, ?_⟩
      intro q hq
      simp only [List.mem_singleton] at hq
      subst hq
      decide
    · cases hl
  have hsome : stW9.apply_block blkW9 = some stW9' := rfl
  have h := update_history_coalesce stW9 blkW9 stW9' hfresh hsome "A"
  exact ⟨hfresh, hsome, h.2, h.1⟩

/-- Recording history leaves the balances unchanged. -/
theorem update_history_balances {st s1 : State} {t : Transaction} {bn : Int}
    (h : st.update_history t bn = some s1) : s1.balances = st.balances := by
  unfold State.update_history at h
  split at h
  · simp at h
  · split at h
    · simp at h
    · rw [← Option.some.inj h]

/-- Applying a transfer is exactly the shared balance mutation. -/
theorem apply_transaction_eq {st s2 : State} {t : Transaction}
    (h : st.apply_transaction t = some s2) :
    transferUpd st.balances t.sender t.recipient t.amount = some s2.balances := by
  unfold State.apply_transaction at h
  split at h
  next b2 htt =>
    rw [htt, ← Option.some.inj h]
  next htt => simp at h

/-- Successful transfer mutation in explicit form. -/
theorem transferUpd_eq {b b2 : Balances} {s r : String} {A : Int}
    (h : transferUpd b s r A = some b2) :
    ∃ v, dset b r ((b r).getD 0 + A) s = some v ∧
      b2 = dset (dset b r ((b r).getD 0 + A)) s (v - A) := by
  unfold transferUpd at h
  replace h : (match dset b r ((b r).getD 0 + A) s with
    | some v => some (dset (dset b r ((b r).getD 0 + A)) s (v - A))
    | none => none) = some b2 := h
  split at h
  next v hv => exact ⟨v, hv, (Option.some.inj h).symm⟩
  next hv => simp at h

/-- Pointwise equal balances have equal totals. -/
theorem mapGetD_congr (rest : List String) (f g : Balances) (h : ∀ x ∈ rest, f x = g x) :
    rest.map (fun a => (f a).getD 0) = rest.map (fun a => (g a).getD 0) := by
  induction rest with
  | nil => rfl
  | cons a r ih =>
    simp only [List.map_cons]
    rw [h a (by simp), ih (fun x hx => h x (by simp [hx]))]

/-- Writing one key of a duplicate-free account list shifts the total by
the difference between the written and the previous value. -/
theorem totalOver_dset (accts : List String) (b : Balances) (k : String) (v : Int)
    (hnd : accts.Nodup) (hk : k ∈ accts) :
    totalOver accts (dset b k v) = totalOver accts b + (v - (b k).getD 0) := by
  induction accts with
  | nil => simp at hk
  | cons a rest ih =>
    rw [List.nodup_cons] at hnd
    rcases List.mem_cons.mp hk with hak | hkr
    · subst hak
      unfold totalOver
      simp only [List.map_cons, List.sum_cons, dset_same]
      have hrest : ∀ x ∈ rest, dset b k v x = b x :=
        fun x hx => dset_other _ _ _ _ (fun he => hnd.1 (he ▸ hx))
      rw [mapGetD_congr rest (dset b k v) b hrest]
      simp only [Option.getD_some]
      omega
    · have hak : a ≠ k := fun he => hnd.1 (he ▸ hkr)
      unfold totalOver
      simp only [List.map_cons, List.sum_cons, dset_other b k v a hak]
      have hih := ih hnd.2 hkr
      unfold totalOver at hih
      omega

/-- A successful transfer whose sender and recipient are in a
duplicate-free account list conserves the total over the list. -/
theorem transferUpd_total {b b2 : Balances} {s r : String} {A : Int}
    (h : transferUpd b s r A = some b2) (accts : List String) (hnd : accts.Nodup)
    (hs : s ∈ accts) (hr : r ∈ accts) :
    totalOver accts b2 = totalOver accts b := by
  obtain ⟨v, hv, rfl⟩ := transferUpd_eq h
  have h1 := totalOver_dset accts b r ((b r).getD 0 + A) hnd hr
  have h2 := totalOver_dset accts (dset b r ((b r).getD 0 + A)) s (v - A) hnd hs
  rw [h2, hv, h1]
  simp only [Option.getD_some]
  ring

/-- Total conservation along the fold of State.apply_block. -/
theorem apply_block_fold_total (bn : Int) (accts : List String) (hnd : accts.Nodup) :
    ∀ (txns : List Transaction) (st st2 : State),
      (∀ t ∈ txns, t.sender ∈ accts ∧ t.recipient ∈ accts) →
      (txns.foldlM (fun s t =>
        match s.update_history t bn with
        | none => none
        | some s1 => s1.apply_transaction t) st) = some st2 →
      totalOver accts st2.balances = totalOver accts st.balances := by
  intro txns
  induction txns with
  | nil =>
    intro st st2 _ h
    rw [List.foldlM_nil] at h
    rw [Option.some.inj h]
  | cons t rest ih =>
    intro st st2 hmem h
    rw [List.foldlM_cons] at h
    cases hu : st.update_history t bn with
    | none => rw [hu] at h; simp at h
    | some s1 =>
      rw [hu] at h
      replace h : (s1.apply_transaction t).bind
          (fun init => List.foldlM (fun s t =>
            match s.update_history t bn with
            | none => none
            | some s1 => s1.apply_transaction t) init rest) = some st2 := h
      cases ha : s1.apply_transaction t with
      | none => rw [ha] at h; simp at h
      | some s2 =>
        rw [ha] at h
        simp only [Option.some_bind] at h
        have e1 : s1.balances = st.balances := update_history_balances hu
        have e2 := apply_transaction_eq ha
        have e3 := transferUpd_total e2 accts hnd (hmem t (by simp)).1 (hmem t (by simp)).2
        have e4 := ih s2 st2 (fun x hx => hmem x (by simp [hx])) h
        rw [e4, e3, e1]

/-- C10: applying a block to the ledger state conserves money: over any
duplicate-free account list containing every sender and recipient of the
block transactions, the total balance after State.apply_block equals the
total before, since every applied transaction debits its sender by exactly
the amount it credits to its recipient. -/
theorem apply_block_conserves_total :
    ∀ (st : State) (b : Block) (st2 : State) (accts : List String),
      st.apply_block b = some st2 → accts.Nodup →
      (∀ t ∈ b.transactions, t.sender ∈ accts ∧ t.recipient ∈ accts) →
      totalOver accts st2.balances = totalOver accts st.balances := by
  intro st b st2 accts h hnd hmem
  unfold State.apply_block at h
  exact apply_block_fold_total b.number accts hnd b.transactions st st2 hmem h

/-- Witness for C10 on the concrete state stW9 and block blkW9 over the
account list A, B. -/
theorem apply_block_conserves_total_witness :
    stW9.apply_block blkW9 = some stW9' ∧ ["A", "B"].Nodup ∧
    (∀ t ∈ blkW9.transactions, t.sender ∈ ["A", "B"] ∧ t.recipient ∈ ["A", "B"]) ∧
    totalOver ["A", "B"] stW9'.balances = totalOver ["A", "B"] stW9.balances := by
  have hsome : stW9.apply_block blkW9 = some stW9' := rfl
  exact ⟨hsome, by decide, by decide,
    apply_block_conserves_total stW9 blkW9 stW9' ["A", "B"] hsome (by decide) (by decide)⟩

/-- A completed mining cycle contains a completed local commit. -/
theorem mine_thread_commit {bc : Blockchain} {genesis : Bool}
    {post : Nat → BlockData → Except String Unit}
    {r : Blockchain × Block × List Nat × Option String}
    (h : bc.mine_new_block_in_thread genesis post = some r) :
    bc.mine_commit genesis = some (r.1, r.2.1) := by
  unfold Blockchain.mine_new_block_in_thread at h
  cases hc : bc.mine_commit genesis with
  | none => rw [hc] at h; simp at h
  | some p =>
    rcases p with ⟨bc1, blk⟩
    rw [hc] at h
    have hr := (Option.some.inj h).symm
    subst hr
    rfl

/-- Shape of a genesis local commit: the node list is kept, the block is
appended, and its miner is the own identity. -/
theorem mine_commit_genesis_spec {bc bc1 : Blockchain} {blk : Block}
    (h : bc.mine_commit true = some (bc1, blk)) :
    bc1.nodes = bc.nodes ∧ bc1.chain = bc.chain ++ [blk] ∧ blk.miner = bc.node_identifier := by
  unfold Blockchain.mine_commit at h
  simp only [if_true] at h
  split at h
  · simp at h
  next st1 heq =>
    have hp := Option.some.inj h
    injection hp with h1 h2
    refine ⟨?_, ?_, ?_⟩
    · rw [← h1]
    · rw [← h1, ← h2]
    · rw [← h2]

/-- Shape of a non-genesis local commit: the node list is kept, the block
is appended, and its miner is the own identity. -/
theorem mine_commit_next_spec {bc bc1 : Blockchain} {blk : Block}
    (h : bc.mine_commit false = some (bc1, blk)) :
    bc1.nodes = bc.nodes ∧ bc1.chain = bc.chain ++ [blk] ∧ blk.miner = bc.node_identifier := by
  unfold Blockchain.mine_commit at h
  rw [if_neg (by simp)] at h
  split at h
  next heq => simp at h
  next tip2 heq =>
    simp only [] at h
    split at h
    · simp at h
    next st1 heq2 =>
      have hp := Option.some.inj h
      injection hp with h1 h2
      refine ⟨?_, ?_, ?_⟩
      · rw [← h1]
      · rw [← h1, ← h2]
      · rw [← h2]

/-- Shape of a successful acceptance: the node list is kept, the block is
appended, and its miner is the expected round-robin leader. -/
theorem accept_true_spec {bc bc1 : Blockchain} {blk : Block} {claimed : String}
    (h : bc.accept blk claimed = some (true, bc1)) :
    bc1.nodes = bc.nodes ∧ bc1.chain = bc.chain ++ [blk] ∧
    expectedMinerOf bc.chain bc.nodes = some blk.miner := by
  unfold Blockchain.accept at h
  cases hi : bc.is_new_block_valid blk claimed with
  | none => rw [hi] at h; simp at h
  | some p =>
    rw [hi, Option.map_some'] at h
    rcases p with ⟨ok, st1⟩
    cases ok with
    | false =>
      replace h : some ((false : Bool),
          ({ bc with state := st1 } : Blockchain)) = some (true, bc1) := h
      simp at h
    | true =>
      replace h : some ((true : Bool),
          ({ bc with state := st1, chain := bc.chain ++ [blk] } : Blockchain))
          = some (true, bc1) := h
      have hp := Option.some.inj h
      injection hp with h1 h2
      have hchecks := (inbv_true_spec hi).1
      refine ⟨?_, ?_, hchecks.2.2.2.2⟩
      · rw [← h2]
      · rw [← h2]

/-- Appending a block with the expected miner preserves the rotation
well-formedness of the chain. -/
theorem minersOk_append {nodes : List Nat} {chain : List Block} {b : Block}
    (hok : minersOk nodes chain)
    (hfirst : chain = [] → nodes.min? = some b.miner)
    (hsucc : ∀ tip, chain.getLast? = some tip → nextMinerId tip.miner nodes = some b.miner) :
    minersOk nodes (chain ++ [b]) := by
  obtain ⟨hhead, hchain⟩ := hok
  constructor
  · intro x hx
    cases chain with
    | nil =>
      have hxb : b = x := by simpa using hx
      rw [← hxb]
      exact hfirst rfl
    | cons c cs =>
      have hxc : c = x := by simpa using hx
      rw [← hxc]
      exact hhead c rfl
  · rw [List.chain'_append]
    refine ⟨hchain, List.chain'_singleton b, ?_⟩
    intro x hx y hy
    have hyb : b = y := by simpa using hy
    rw [← hyb]
    exact hsucc x (by simpa using hx)

/-- C5: in every orchestrator state reachable from an empty chain by the
two (spec-modelled) step operations, the node list is unchanged, the first
block is mined by the minimum node identity, and every later block by the
round-robin successor of its predecessor miner. -/
theorem reachable_chain_miner_rotation :
    ∀ (bc0 bc : Blockchain), Reach bc0 bc → bc0.chain = [] →
      bc.nodes = bc0.nodes ∧ minersOk bc.nodes bc.chain := by
  intro bc0 bc hreach
  induction hreach with
  | refl =>
    intro h0
    refine ⟨rfl, ?_⟩
    rw [h0]
    exact ⟨fun x hx => by simp at hx, List.chain'_nil⟩
  | tail bc2 bc3 hr hstep ih =>
    intro h0
    obtain ⟨hnodes, hok⟩ := ih h0
    cases hstep with
    | mine_genesis blk att err post hchain hleader hrun =>
      have hc := mine_thread_commit hrun
      have hspec := mine_commit_genesis_spec hc
      refine ⟨hspec.1.trans hnodes, ?_⟩
      rw [hspec.2.1, hchain, List.nil_append, hspec.1]
      constructor
      · intro x hx
        have hxb : blk = x := by simpa using hx
        rw [← hxb, hspec.2.2]
        exact hleader
      · exact List.chain'_singleton blk
    | mine_next tip blk att err post htip hleader hrun =>
      have hc := mine_thread_commit hrun
      have hspec := mine_commit_next_spec hc
      refine ⟨hspec.1.trans hnodes, ?_⟩
      rw [hspec.2.1, hspec.1]
      apply minersOk_append hok
      · intro hempty
        rw [hempty] at htip
        simp at htip
      · intro tip2 htip2
        have htt : tip2 = tip := Option.some.inj (htip2.symm.trans htip)
        subst htt
        rw [hspec.2.2]
        exact hleader
    | accept_peer blk claimed hrun =>
      have hspec := accept_true_spec hrun
      refine ⟨hspec.1.trans hnodes, ?_⟩
      rw [hspec.2.1, hspec.1]
      apply minersOk_append hok
      · intro hempty
        have hexp := hspec.2.2
        unfold expectedMinerOf at hexp
        rw [hempty] at hexp
        exact hexp
      · intro tip2 htip2
        have hexp := hspec.2.2
        unfold expectedMinerOf at hexp
        rw [htip2] at hexp
        exact hexp

/-- Witness for C5: one genesis mining step from the concrete two-node
orchestrator bcEx5 reaches a state whose chain satisfies the rotation
invariant. -/
theorem reachable_chain_miner_rotation_witness :
    bcEx5.chain = [] ∧ (mineRes5.1).nodes = bcEx5.nodes ∧
      minersOk (mineRes5.1).nodes (mineRes5.1).chain := by
  have hchain : bcEx5.chain = [] := rfl
  have hstep : Step bcEx5 mineRes5.1 :=
    Step.mine_genesis bcEx5 mineRes5.1 mineRes5.2.1 mineRes5.2.2.1 mineRes5.2.2.2 postOk
      hchain (by decide) rfl
  have h := reachable_chain_miner_rotation bcEx5 mineRes5.1
    (Reach.tail bcEx5 bcEx5 mineRes5.1 (Reach.refl bcEx5) hstep) hchain
  exact ⟨hchain, h.1, h.2⟩
